import Mathlib

/-!
Verification development for the puzzle_helper repository.

The Go source is shallowly embedded: strings are lists of characters,
Go maps are association lists / multisets / finsets as appropriate,
channel-collected results are lists, and operations that can panic at
runtime return Option with none marking the panic.
-/

namespace PuzzleHelper

/-- ASCII code of the capital letter A, mirrors the constant ASCII_A in trie.go. -/
def ASCII_A : Nat := 65

/-- Test for the regular expression [A-Za-z] on a single character, mirrors
lettersRegex in root.go applied to a one-byte string. -/
def isAsciiLetter (c : Char) : Bool :=
  (65 ≤ c.toNat && c.toNat ≤ 90) || (97 ≤ c.toNat && c.toNat ≤ 122)

/-- Uppercasing of a single character, mirrors strings.ToUpper on one ASCII
character and upperCaseByte in ngrams.go. -/
def upperChar (c : Char) : Char :=
  if 97 ≤ c.toNat && c.toNat ≤ 122 then Char.ofNat (c.toNat - 32) else c

/-- Child-slot index of a character: the Go code computes byte(c) - ASCII_A on
a uint8, which wraps modulo 256.  For one-byte (ASCII) characters this is
(c + 256 - 65) % 256; capital letters land on 0..25, every other byte lands
on 26..255. -/
def byteIndex (c : Char) : Nat :=
  (c.toNat + 256 - ASCII_A) % 256

/-- Test for the regular expression ^[A-Z]+$, mirrors allUppercase in trie.go. -/
def validWord (w : List Char) : Bool :=
  !w.isEmpty && w.all (fun c => 65 ≤ c.toNat && c.toNat ≤ 90)

/-- Characters that stay inside the 26 letter slots: capital A..Z.  A string of
safe characters never drives a child index out of range. -/
def safeString (w : List Char) : Bool :=
  w.all (fun c => 65 ≤ c.toNat && c.toNat ≤ 90)

theorem validWord_safe {w : List Char} (h : validWord w = true) : safeString w = true := by
  simp [validWord, safeString] at *
  exact h.2

theorem byteIndex_lt_26 {c : Char} (h : 65 ≤ c.toNat ∧ c.toNat ≤ 90) :
    byteIndex c < 26 := by
  have h1 := h.1
  have h2 := h.2
  simp [byteIndex, ASCII_A]
  omega

theorem byteIndex_inj {c d : Char} (hc : 65 ≤ c.toNat ∧ c.toNat ≤ 90)
    (hd : 65 ≤ d.toNat ∧ d.toNat ≤ 90) (h : byteIndex c = byteIndex d) : c = d := by
  have hnat : c.toNat = d.toNat := by
    simp [byteIndex, ASCII_A] at h
    omega
  have := Char.ofNat_toNat c
  rw [hnat, Char.ofNat_toNat] at this
  exact this.symm

/-!  The trie of src/cmd/trie.go (the uppercase-only version): a letter, a
word-boundary flag, an optional payload and a list of child slots.  Nodes
created by the code always carry exactly 26 child slots; the list length is
kept in the model so that out-of-range accesses can be observed. -/

/-- TrieNode structure of src/cmd/trie.go: letter, atWordBoundary, value,
children.  The payload interface value is an Option (Go nil = none). -/
inductive trieNode (α : Type) : Type where
  | mk (letter : List Char) (atWordBoundary : Bool) (value : Option α)
       (children : List (Option (trieNode α))) : trieNode α

namespace trieNode

variable {α : Type}

def letter : trieNode α → List Char
  | .mk l _ _ _ => l

def atWordBoundary : trieNode α → Bool
  | .mk _ b _ _ => b

def value : trieNode α → Option α
  | .mk _ _ v _ => v

def children : trieNode α → List (Option (trieNode α))
  | .mk _ _ _ cs => cs

@[simp] theorem letter_mk (l b v cs) : (mk l b v cs : trieNode α).letter = l := rfl
@[simp] theorem atWordBoundary_mk (l b v cs) : (mk l b v cs : trieNode α).atWordBoundary = b := rfl
@[simp] theorem value_mk (l b v cs) : (mk l b v cs : trieNode α).value = v := rfl
@[simp] theorem children_mk (l b v cs) : (mk l b v cs : trieNode α).children = cs := rfl

end trieNode

/-- Constructor newTrieWithLetter of trie.go: a non-boundary node with a nil
value and 26 empty child slots. -/
def newTrieWithLetter (l : List Char) : trieNode α :=
  .mk l false none (List.replicate 26 none)

/-- Constructor newTrie of trie.go. -/
def newTrie : trieNode α := newTrieWithLetter []

/-- Walking part of addValueForString in trie.go (the for-loop over the
letters plus the final boundary/value writes).  Reading children[childIndex]
panics when the index is out of range; the panic is modelled as none. -/
def addWalk : trieNode α → List Char → α → Option (trieNode α)
  | .mk l _ _ cs, [], newVal => some (.mk l true (some newVal) cs)
  | .mk l b v cs, c :: rest, newVal =>
      let idx := byteIndex c
      if h : idx < cs.length then
        let child := (cs.get ⟨idx, h⟩).getD (newTrieWithLetter [c])
        (addWalk child rest newVal).map (fun child2 => .mk l b v (cs.set idx (some child2)))
      else
        none

/-- Function addValueForString of trie.go: reject strings that are not
all-uppercase-alphabetic with an error carrying the offending string,
otherwise walk/create child nodes and mark the terminal node.  The outer
Option marks a runtime panic (impossible on tries the code builds). -/
def addValueForString (t : trieNode α) (input : List Char) (v : α) :
    Option (Except (List Char) (trieNode α)) :=
  if validWord input then (addWalk t input v).map Except.ok
  else some (Except.error input)

/-- Function getValueForString of trie.go: walk the child links; a missing
link gives (nil, false); finishing on a non-boundary node gives (nil, false);
finishing on a boundary node gives (value, true).  Reading
children[childIndex] out of range is a runtime panic, modelled as none. -/
def getValueForString : trieNode α → List Char → Option (Option α × Bool)
  | t, [] => if t.atWordBoundary then some (t.value, true) else some (none, false)
  | .mk _ _ _ cs, c :: rest =>
      let idx := byteIndex c
      if h : idx < cs.length then
        match cs.get ⟨idx, h⟩ with
        | none => some (none, false)
        | some child => getValueForString child rest
      else
        none

/-- One step of ReadDictionaryToTrie in root.go: an invalid word is reported
and skipped (the trie is unchanged), a valid word is inserted. -/
def trieAddStep (t : trieNode α) (p : List Char × α) : Option (trieNode α) :=
  match addValueForString t p.1 p.2 with
  | none => none
  | some (.error _) => some t
  | some (.ok t2) => some t2

/-- Trie obtained by feeding a list of (word, value) pairs through
ReadDictionaryToTrie / addValueForString, starting from newTrie. -/
def buildTrie (entries : List (List Char × α)) : Option (trieNode α) :=
  entries.foldlM trieAddStep newTrie

/-- Well-formedness of a trie down to a given depth: every node reached
within that many steps has exactly 26 child slots.  This is the shape
newTrieWithLetter gives every node it creates. -/
def wfTo : Nat → trieNode α → Bool
  | 0, _ => true
  | d + 1, t =>
      (t.children.length == 26) &&
        t.children.all (fun o => match o with | none => true | some c => wfTo d c)

/-- Well-formedness at every depth. -/
def Wf (t : trieNode α) : Prop := ∀ d, wfTo d t = true

@[simp] theorem wfTo_zero (t : trieNode α) : wfTo 0 t = true := rfl

theorem wfTo_succ (d : Nat) (l b v) (cs : List (Option (trieNode α))) :
    wfTo (d + 1) (.mk l b v cs) =
      ((cs.length == 26) &&
        cs.all (fun o => match o with | none => true | some c => wfTo d c)) := rfl

theorem wfTo_succ_iff {d : Nat} {l b v} {cs : List (Option (trieNode α))} :
    wfTo (d + 1) (.mk l b v cs) = true ↔
      (cs.length = 26 ∧ ∀ c, some c ∈ cs → wfTo d c = true) := by
  rw [wfTo_succ]
  rw [Bool.and_eq_true, beq_iff_eq, List.all_eq_true]
  constructor
  · rintro ⟨h1, h2⟩
    refine ⟨h1, fun c hc => ?_⟩
    have := h2 (some c) hc
    simpa using this
  · rintro ⟨h1, h2⟩
    refine ⟨h1, fun o ho => ?_⟩
    cases o with
    | none => rfl
    | some c => simpa using h2 c ho

theorem wfTo_length {d : Nat} {t : trieNode α} (h : wfTo (d + 1) t = true) :
    t.children.length = 26 := by
  cases t with
  | mk l b v cs => exact (wfTo_succ_iff.mp h).1

theorem wfTo_child {d : Nat} {t c : trieNode α} (h : wfTo (d + 1) t = true)
    (hc : some c ∈ t.children) : wfTo d c = true := by
  cases t with
  | mk l b v cs => exact (wfTo_succ_iff.mp h).2 c hc

theorem wf_new (l : List Char) : Wf (newTrieWithLetter l : trieNode α) := by
  intro d
  cases d with
  | zero => rfl
  | succ d =>
    rw [newTrieWithLetter]
    refine wfTo_succ_iff.mpr ⟨by simp, fun c hc => ?_⟩
    have := List.eq_of_mem_replicate hc
    cases this

theorem wf_newTrie : Wf (newTrie : trieNode α) := wf_new []

theorem wf_mk_of_children {l b v} {cs : List (Option (trieNode α))}
    (hlen : cs.length = 26)
    (hall : ∀ c, some c ∈ cs → Wf c) : Wf (.mk l b v cs) := by
  intro d
  cases d with
  | zero => rfl
  | succ d => exact wfTo_succ_iff.mpr ⟨hlen, fun c hc => hall c hc d⟩

theorem wf_children {t : trieNode α} (h : Wf t) {c : trieNode α}
    (hc : some c ∈ t.children) : Wf c :=
  fun d => wfTo_child (h (d + 1)) hc

/-- Insertion of an all-uppercase word into a well-formed trie succeeds (no
index panic) and preserves well-formedness. -/
theorem addWalk_wf {t : trieNode α} (hwf : Wf t) {w : List Char}
    (hs : safeString w = true) (v : α) :
    ∃ t2, addWalk t w v = some t2 ∧ Wf t2 := by
  induction w generalizing t with
  | nil =>
    cases t with
    | mk l b val cs =>
      refine ⟨.mk l true (some v) cs, rfl, ?_⟩
      exact wf_mk_of_children (wfTo_length (hwf 1))
        (fun c hc => wf_children hwf hc)
  | cons c rest ih =>
    cases t with
    | mk l b val cs =>
      have hc : 65 ≤ c.toNat ∧ c.toNat ≤ 90 := by
        simp [safeString] at hs
        exact hs.1
      have hrest : safeString rest = true := by
        simp [safeString] at hs ⊢
        exact hs.2
      have hlen : cs.length = 26 := wfTo_length (hwf 1)
      have hidx : byteIndex c < cs.length := by rw [hlen]; exact byteIndex_lt_26 hc
      have hwfchild : Wf ((cs.get ⟨byteIndex c, hidx⟩).getD (newTrieWithLetter [c])) := by
        cases hget : cs.get ⟨byteIndex c, hidx⟩ with
        | none => simpa [hget] using wf_new [c]
        | some c0 =>
          have : some c0 ∈ cs := hget ▸ List.get_mem cs _ hidx
          simpa [hget] using wf_children hwf this
      obtain ⟨t2, ht2, hwf2⟩ := ih hwfchild hrest
      refine ⟨.mk l b val (cs.set (byteIndex c) (some t2)), ?_, ?_⟩
      · simp only [addWalk, dif_pos hidx, ht2, Option.map_some']
      · refine wf_mk_of_children (by simp [hlen]) ?_
        intro c2 hc2
        rcases List.mem_or_eq_of_mem_set hc2 with hmem | heq
        · exact wf_children hwf hmem
        · cases heq; exact hwf2

/-- Lookup in a freshly created node: boundary is false and all child slots
are empty, so every safe string reports (nil, false). -/
theorem getValueForString_new {l : List Char} {s : List Char}
    (hs : safeString s = true) :
    getValueForString (newTrieWithLetter l : trieNode α) s = some (none, false) := by
  cases s with
  | nil => rfl
  | cons e erest =>
    have he : 65 ≤ e.toNat ∧ e.toNat ≤ 90 := by
      simp [safeString] at hs
      exact hs.1
    have hidxe : byteIndex e < (List.replicate 26 (none : Option (trieNode α))).length := by
      simpa using byteIndex_lt_26 he
    rw [newTrieWithLetter, getValueForString]
    simp only [trieNode.children_mk] at hidxe ⊢
    simp only [dif_pos hidxe]
    rw [List.get_replicate]

/-- Lookup of safe strings in a well-formed trie never panics. -/
theorem getValueForString_isSome {t : trieNode α} (hwf : Wf t) {s : List Char}
    (hs : safeString s = true) : (getValueForString t s).isSome = true := by
  induction s generalizing t with
  | nil =>
    cases t with
    | mk l b v cs => cases b <;> simp [getValueForString]
  | cons c rest ih =>
    cases t with
    | mk l b v cs =>
      have hc : 65 ≤ c.toNat ∧ c.toNat ≤ 90 := by
        simp [safeString] at hs
        exact hs.1
      have hrest : safeString rest = true := by
        simp [safeString] at hs ⊢
        exact hs.2
      have hlen : cs.length = 26 := wfTo_length (hwf 1)
      have hidx : byteIndex c < cs.length := by rw [hlen]; exact byteIndex_lt_26 hc
      rw [getValueForString]
      simp only [dif_pos hidx]
      cases hget : cs.get ⟨byteIndex c, hidx⟩ with
      | none => rfl
      | some child =>
        have : some child ∈ cs := hget ▸ List.get_mem cs _ hidx
        exact ih (wf_children hwf this) hrest

/-- Looking up the word just inserted finds its value with found = true. -/
theorem getValueForString_addWalk_same {t t2 : trieNode α} {w : List Char} {v : α}
    (hs : safeString w = true) (h : addWalk t w v = some t2) :
    getValueForString t2 w = some (some v, true) := by
  induction w generalizing t t2 with
  | nil =>
    cases t with
    | mk l b val cs =>
      simp only [addWalk, Option.some_inj] at h
      subst h
      simp [getValueForString, trieNode.atWordBoundary, trieNode.value]
  | cons c rest ih =>
    cases t with
    | mk l b val cs =>
      have hc : 65 ≤ c.toNat ∧ c.toNat ≤ 90 := by
        simp [safeString] at hs
        exact hs.1
      have hrest : safeString rest = true := by
        simp [safeString] at hs ⊢
        exact hs.2
      rw [addWalk] at h
      by_cases hidx : byteIndex c < cs.length
      · simp only [dif_pos hidx] at h
        cases hrec : addWalk ((cs.get ⟨byteIndex c, hidx⟩).getD (newTrieWithLetter [c])) rest v with
        | none => rw [hrec] at h; exact Option.noConfusion h
        | some child2 =>
          rw [hrec] at h
          simp only [Option.map_some', Option.some_inj] at h
          subst h
          have hlen2 : byteIndex c < (cs.set (byteIndex c) (some child2)).length := by
            simpa using hidx
          rw [getValueForString]
          simp only [dif_pos hlen2]
          rw [List.get_set_eq]
          exact ih hrest hrec
      · simp [dif_neg hidx] at h

/-- Looking up a different safe string is unaffected by an insertion. -/
theorem getValueForString_addWalk_other {t t2 : trieNode α} {w s : List Char} {v : α}
    (hw : safeString w = true) (hs : safeString s = true) (hne : s ≠ w)
    (h : addWalk t w v = some t2) :
    getValueForString t2 s = getValueForString t s := by
  induction w generalizing t t2 s with
  | nil =>
    cases t with
    | mk l b val cs =>
      simp only [addWalk, Option.some_inj] at h
      subst h
      cases s with
      | nil => exact absurd rfl hne
      | cons c srest => rw [getValueForString, getValueForString]
  | cons d wrest ih =>
    cases t with
    | mk l b val cs =>
      have hd : 65 ≤ d.toNat ∧ d.toNat ≤ 90 := by
        simp [safeString] at hw
        exact hw.1
      have hwrest : safeString wrest = true := by
        simp [safeString] at hw ⊢
        exact hw.2
      rw [addWalk] at h
      by_cases hidx : byteIndex d < cs.length
      · simp only [dif_pos hidx] at h
        cases hrec : addWalk ((cs.get ⟨byteIndex d, hidx⟩).getD (newTrieWithLetter [d])) wrest v with
        | none => rw [hrec] at h; exact Option.noConfusion h
        | some child2 =>
          rw [hrec] at h
          simp only [Option.map_some', Option.some_inj] at h
          subst h
          cases s with
          | nil =>
            simp only [getValueForString, trieNode.atWordBoundary_mk, trieNode.value_mk]
          | cons c srest =>
            have hcChar : 65 ≤ c.toNat ∧ c.toNat ≤ 90 := by
              simp [safeString] at hs
              exact hs.1
            have hsrest : safeString srest = true := by
              simp [safeString] at hs ⊢
              exact hs.2
            by_cases hcd : c = d
            · subst hcd
              have hne2 : srest ≠ wrest := by
                intro hEq; exact hne (by rw [hEq])
              have hidx2 : byteIndex c < (cs.set (byteIndex c) (some child2)).length := by
                simpa using hidx
              rw [getValueForString, getValueForString]
              simp only [dif_pos hidx2, dif_pos hidx]
              rw [List.get_set_eq]
              cases hget : cs.get ⟨byteIndex c, hidx⟩ with
              | none =>
                rw [hget] at hrec
                simp only [Option.getD] at hrec
                show getValueForString child2 srest = some (none, false)
                have hfresh : ∀ (s2 : List Char), safeString s2 = true →
                    getValueForString (newTrieWithLetter [c] : trieNode α) s2 = some (none, false) := by
                  intro s2 hs2
                  cases s2 with
                  | nil => rfl
                  | cons e erest =>
                    have he : 65 ≤ e.toNat ∧ e.toNat ≤ 90 := by
                      simp [safeString] at hs2
                      exact hs2.1
                    have hidxe : byteIndex e < (List.replicate 26 (none : Option (trieNode α))).length := by
                      simpa using byteIndex_lt_26 he
                    rw [newTrieWithLetter, getValueForString]
                    simp only [trieNode.children_mk] at hidxe ⊢
                    simp only [dif_pos hidxe]
                    rw [List.get_replicate]
                have := ih hwrest hsrest hne2 hrec
                rw [this, hfresh srest hsrest]
              | some c0 =>
                rw [hget] at hrec
                simp only [Option.getD] at hrec
                show getValueForString child2 srest = getValueForString c0 srest
                exact ih hwrest hsrest hne2 hrec
            · have hidxne : byteIndex d ≠ byteIndex c := by
                intro hEq; exact hcd (byteIndex_inj hcChar hd hEq.symm)
              rw [getValueForString, getValueForString]
              by_cases hidx2 : byteIndex c < cs.length
              · have hidx3 : byteIndex c < (cs.set (byteIndex d) (some child2)).length := by
                  simpa using hidx2
                simp only [dif_pos hidx2, dif_pos hidx3]
                rw [List.get_set_of_ne hidxne]
              · have hidx3 : ¬ byteIndex c < (cs.set (byteIndex d) (some child2)).length := by
                  simpa using hidx2
                simp only [dif_neg hidx2, dif_neg hidx3]
      · simp [dif_neg hidx] at h

theorem trieAddStep_valid {t t2 : trieNode α} {w : List Char} {v : α}
    (hv : validWord w = true) (h : addWalk t w v = some t2) :
    trieAddStep t (w, v) = some t2 := by
  simp [trieAddStep, addValueForString, hv, h]

theorem trieAddStep_invalid {t : trieNode α} {w : List Char} {v : α}
    (hv : validWord w = false) : trieAddStep t (w, v) = some t := by
  simp [trieAddStep, addValueForString, hv]

theorem foldlM_option_append {β γ : Type} (es1 es2 : List β) (f : γ → β → Option γ)
    (t : γ) :
    (es1 ++ es2).foldlM f t = (es1.foldlM f t).bind (fun u => es2.foldlM f u) := by
  induction es1 generalizing t with
  | nil => simp
  | cons p es1 ih =>
    rw [List.cons_append, List.foldlM_cons, List.foldlM_cons]
    cases f t p with
    | none => rfl
    | some u => simpa using ih u

/-- Feeding entries through ReadDictionaryToTrie starting from a well-formed
trie never panics and keeps the trie well-formed. -/
theorem buildFrom_wf {t : trieNode α} (hwf : Wf t) (es : List (List Char × α)) :
    ∃ u, es.foldlM trieAddStep t = some u ∧ Wf u := by
  induction es generalizing t with
  | nil => exact ⟨t, by simp, hwf⟩
  | cons p es ih =>
    rw [List.foldlM_cons]
    cases hv : validWord p.1 with
    | false =>
      rw [show trieAddStep t p = some t from trieAddStep_invalid hv]
      exact ih hwf
    | true =>
      obtain ⟨t1, ht1, hwf1⟩ := addWalk_wf hwf (validWord_safe hv) p.2
      rw [show trieAddStep t p = some t1 from trieAddStep_valid hv ht1]
      exact ih hwf1

/-- Lookup of a safe string is unchanged by inserting entries none of whose
valid words equal it. -/
theorem getValueForString_buildFrom_other {t u : trieNode α} {s : List Char}
    (hwf : Wf t) (hs : safeString s = true) {es : List (List Char × α)}
    (hne : ∀ p ∈ es, validWord p.1 = true → p.1 ≠ s)
    (h : es.foldlM trieAddStep t = some u) :
    getValueForString u s = getValueForString t s := by
  induction es generalizing t with
  | nil => simp at h; rw [h]
  | cons p es ih =>
    rw [List.foldlM_cons] at h
    cases hv : validWord p.1 with
    | false =>
      rw [show trieAddStep t p = some t from trieAddStep_invalid hv] at h
      exact ih hwf (fun q hq => hne q (List.mem_cons_of_mem p hq)) h
    | true =>
      obtain ⟨t1, ht1, hwf1⟩ := addWalk_wf hwf (validWord_safe hv) p.2
      rw [show trieAddStep t p = some t1 from trieAddStep_valid hv ht1] at h
      have hstep : getValueForString t1 s = getValueForString t s :=
        getValueForString_addWalk_other (validWord_safe hv) hs
          (fun hEq => hne p (List.mem_cons_self p es) hv hEq.symm) ht1
      rw [ih hwf1 (fun q hq => hne q (List.mem_cons_of_mem p hq)) h, hstep]

/-- Claim C2 (amended to strings over the trie alphabet A-Z, since lookup of
any other string panics rather than returning (nil, false); see the
counterexample theorem): inserting a word matching the regular expression
^[A-Z]+$ and then looking it up - possibly after further insertions of other
words - yields (value, true), and looking up any all-uppercase string that
was never inserted, including one that is only a proper prefix of an inserted
word, yields (nil, false). -/
theorem trie_lookup_roundtrip :
    (∀ (α : Type) (before after : List (List Char × α)) (w : List Char) (v : α)
        (t : trieNode α),
        validWord w = true →
        (∀ p ∈ after, validWord p.1 = true → p.1 ≠ w) →
        buildTrie (before ++ (w, v) :: after) = some t →
        getValueForString t w = some (some v, true))
    ∧ (∀ (α : Type) (es : List (List Char × α)) (s : List Char) (t : trieNode α),
        safeString s = true →
        (∀ p ∈ es, validWord p.1 = true → p.1 ≠ s) →
        buildTrie es = some t →
        getValueForString t s = some (none, false)) := by
  constructor
  · intro α before after w v t hv hafter h
    rw [buildTrie, foldlM_option_append] at h
    cases hb : List.foldlM trieAddStep (newTrie : trieNode α) before with
    | none => rw [hb] at h; exact Option.noConfusion h
    | some t0 =>
      rw [hb] at h
      simp only [Option.some_bind] at h
      have hwf0 : Wf t0 := by
        obtain ⟨u, hu, hwfu⟩ := buildFrom_wf wf_newTrie before
        rw [hu] at hb
        cases hb
        exact hwfu
      rw [List.foldlM_cons] at h
      obtain ⟨t1, ht1, hwf1⟩ := addWalk_wf hwf0 (validWord_safe hv) v
      rw [show trieAddStep t0 (w, v) = some t1 from trieAddStep_valid hv ht1] at h
      have h2 : List.foldlM trieAddStep t1 after = some t := h
      rw [getValueForString_buildFrom_other hwf1 (validWord_safe hv) hafter h2]
      exact getValueForString_addWalk_same (validWord_safe hv) ht1
  · intro α es s t hs hne h
    rw [buildTrie] at h
    rw [getValueForString_buildFrom_other wf_newTrie hs hne h]
    exact getValueForString_new hs

/-- Concrete one-word dictionary trie used by the trie witnesses. -/
def smallTrie : trieNode Nat :=
  (buildTrie [((['A', 'B'] : List Char), (0 : Nat))]).getD newTrie

/-- Counterexample to claim C2 as frozen: the string consisting of the single
lowercase letter a was never inserted into the trie holding AB, yet looking
it up does not return (nil, false) - the child-index computation 97 - 65 = 32
runs past the 26-slot child array and the code panics (modelled as none). -/
theorem trie_lookup_nonupper_counterexample :
    (buildTrie [((['A', 'B'] : List Char), (0 : Nat))]).isSome = true ∧
    (buildTrie [((['A', 'B'] : List Char), (0 : Nat))]).map
      (fun t => getValueForString t ['a']) = some none := by
  constructor
  · rfl
  · rfl

/-- Witness for claim C2: the concrete dictionary {AB} with value 0; looking
up AB finds (0, true) and looking up the never-inserted proper prefix A gives
(nil, false). -/
theorem trie_lookup_roundtrip_witness :
    getValueForString smallTrie ['A', 'B'] = some (some 0, true) ∧
    getValueForString smallTrie ['A'] = some (none, false) :=
  ⟨trie_lookup_roundtrip.1 Nat [] [] ['A', 'B'] 0 smallTrie (by decide)
      (by intro p hp; cases hp) rfl,
   trie_lookup_roundtrip.2 Nat [((['A', 'B'] : List Char), (0 : Nat))] ['A']
      smallTrie (by decide) (by decide) rfl⟩

/-- Claim C10: lookups built from only the characters A-Z always stay inside
the 26-slot child arrays of a dictionary-built trie (no runtime fault), and
there is an input containing a character outside A-Z - the lowercase a -
whose lookup faults (modelled result none) instead of returning (nil,
false). -/
theorem trie_childIndex_bounds :
    (∀ (α : Type) (es : List (List Char × α)) (t : trieNode α) (s : List Char),
        buildTrie es = some t → safeString s = true →
        (getValueForString t s).isSome = true)
    ∧ (buildTrie [((['A', 'B'] : List Char), (0 : Nat))]).isSome = true
    ∧ (buildTrie [((['A', 'B'] : List Char), (0 : Nat))]).map
        (fun t => getValueForString t ['a']) = some none := by
  refine ⟨?_, rfl, rfl⟩
  intro α es t s h hs
  have hwf : Wf t := by
    obtain ⟨u, hu, hwfu⟩ := buildFrom_wf wf_newTrie es
    rw [buildTrie] at h
    rw [hu] at h
    cases h
    exact hwfu
  exact getValueForString_isSome hwf hs

/-- Witness for claim C10: the safe lookup half applied to the concrete
dictionary {AB} and the safe string BA. -/
theorem trie_childIndex_bounds_witness :
    (getValueForString smallTrie ['B', 'A']).isSome = true :=
  trie_childIndex_bounds.1 Nat [((['A', 'B'] : List Char), (0 : Nat))]
    smallTrie ['B', 'A'] rfl (by decide)

/-!  The exported TrieNode type consumed by the solvers.  Its defining source
file is absent from this snapshot of the repository: src/cmd/trie.go contains
two earlier package-private versions (a map-based trieNode and a 26-slot
array trieNode), while transposal.go, letterbank.go, substitution.go and
root.go all operate on an exported TrieNode with a word-break slot at index
len(children)-1.  The type and its insertion routine are therefore modelled
from the spec, and the solver code below is translated from the source
against this model. -/

/-- Modelled from the spec: the exported TrieNode of the final trie version,
whose defining file is missing from src/.  Spec section 3: a letter (empty
for the root), a boundary flag, an opaque payload, and an array of 27 child
slots - 26 letters, index = letter - A, with slot 26 reserved as the
traversal sentinel that marks "a word ends here" for the multi-word
searches. -/
inductive TrieNode : Type where
  | mk (letter : List Char) (atWordBoundary : Bool) (value : Option Unit)
       (children : List (Option TrieNode)) : TrieNode

namespace TrieNode

def letter : TrieNode → List Char
  | .mk l _ _ _ => l

def atWordBoundary : TrieNode → Bool
  | .mk _ b _ _ => b

def value : TrieNode → Option Unit
  | .mk _ _ v _ => v

def children : TrieNode → List (Option TrieNode)
  | .mk _ _ _ cs => cs

@[simp] theorem letter_mk27 (l b v cs) : (mk l b v cs).letter = l := rfl
@[simp] theorem atWordBoundary_mk27 (l b v cs) : (mk l b v cs).atWordBoundary = b := rfl
@[simp] theorem value_mk27 (l b v cs) : (mk l b v cs).value = v := rfl
@[simp] theorem children_mk27 (l b v cs) : (mk l b v cs).children = cs := rfl

end TrieNode

/-- Modelled from the spec: node constructor of the exported trie - a fresh
non-boundary node with 27 empty child slots. -/
def newTrieWithLetter27 (l : List Char) : TrieNode :=
  .mk l false none (List.replicate 27 none)

/-- Modelled from the spec: the root constructor of the exported trie. -/
def newTrie27 : TrieNode := newTrieWithLetter27 []

/-- Modelled from the spec: the letter-walking part of insertion into the
exported trie.  The terminal node gets its boundary flag, its payload, and a
sentinel node in child slot 26, so that the multi-word searches can see "a
word ends here" while iterating the child array. -/
def insertWord : TrieNode → List Char → TrieNode
  | .mk l b v cs, [] =>
      .mk l true (some ()) (cs.set 26 (some (newTrieWithLetter27 [])))
  | .mk l b v cs, c :: rest =>
      let idx := byteIndex c
      let child := (cs.getD idx none).getD (newTrieWithLetter27 [c])
      .mk l b v (cs.set idx (some (insertWord child rest)))

/-- Modelled from the spec: addValueForString of the exported trie validates
^[A-Z]+$ exactly as the in-repo versions do; an invalid word is rejected and
leaves the trie unchanged (ReadDictionaryToTrie reports and continues). -/
def addValueForString27 (t : TrieNode) (w : List Char) : TrieNode :=
  if validWord w then insertWord t w else t

/-- Dictionary trie built by streaming words through ReadDictionaryToTrie. -/
def buildTrie27 (ws : List (List Char)) : TrieNode :=
  ws.foldl addValueForString27 newTrie27

/-!  Transposal solving, translated from src/cmd/transposal.go.  The Go
letter-count map (letter to positive count, key deleted at zero) is
represented as a Multiset Char: key membership is multiset membership, the
map is empty exactly when the multiset is, and DecrementLetterCounts is
multiset erase (removing one occurrence; a letter that is absent leaves the
map unchanged, exactly as the Go function returns its argument). -/

/-- Function CreateLetterCountsMap of transposal.go: count the letters of the
input, ignoring non-letters and uppercasing, as a multiset. -/
def CreateLetterCountsMap (input : List Char) : Multiset Char :=
  (((input.filter (fun c => isAsciiLetter c)).map upperChar : List Char) : Multiset Char)

/-- Function DecrementLetterCounts of transposal.go: decrement the count of
one letter, deleting the key when it reaches zero; an absent letter leaves
the counts unchanged. -/
def DecrementLetterCounts (letter : Char) (currentCounts : Multiset Char) : Multiset Char :=
  currentCounts.erase letter

/-- Distinct letters present in the counts map, in one fixed enumeration
order; Go iterates map keys in unspecified order, so the model fixes an
arbitrary deterministic order over the same key set. -/
def letterKeys (input : List Char) : List Char :=
  ((input.filter (fun c => isAsciiLetter c)).map upperChar).dedup

/-- Filter applied by the collector goroutine of PerformTransposalSolve and
PerformLetterBankSolve: word count within [minNumWords, maxNumWords] and
every word length within [minWordLen, maxWordLen]. -/
def solutionPassesFilters (minWordLen maxWordLen minNumWords maxNumWords : Nat)
    (sol : List (List Char)) : Bool :=
  minNumWords ≤ sol.length && sol.length ≤ maxNumWords &&
    sol.all (fun w => minWordLen ≤ w.length && w.length ≤ maxWordLen)

/-- Function RecursiveFindTransposals of transposal.go.  Translated clause by
clause: emit when the counts are exhausted at a word boundary; stop when the
counts are exhausted elsewhere; otherwise iterate the child slots, treating
the last index as the word-break slot (restart from the root with the
current word closed, when at a boundary and under the word budget - Go then
breaks, which at the last index just ends the loop) and all other occupied
slots as letters, followed only while the letter still has a count.
Solutions sent to the channel are collected in emission order.  The fuel
argument bounds the recursion depth so the model is total; every theorem
below holds for every fuel. -/
def RecursiveFindTransposals (fuel : Nat) (rootTrie currentTrie : TrieNode)
    (letterCounts : Multiset Char) (currentWordList : List (List Char))
    (currentWord : List Char) (minWordLen maxWordLen minNumWords maxNumWords : Nat) :
    List (List (List Char)) :=
  match fuel with
  | 0 => []
  | fuel + 1 =>
    if letterCounts = 0 ∧ currentTrie.atWordBoundary = true then
      [currentWordList ++ [currentWord]]
    else if letterCounts = 0 then
      []
    else
      currentTrie.children.enum.flatMap (fun p =>
        match p.2 with
        | none => []
        | some childTrie =>
          if p.1 = currentTrie.children.length - 1 then
            if currentTrie.atWordBoundary = true ∧
                (currentWordList ++ [currentWord]).length ≤ maxNumWords then
              RecursiveFindTransposals fuel rootTrie rootTrie letterCounts
                (currentWordList ++ [currentWord]) [] minWordLen maxWordLen
                minNumWords maxNumWords
            else []
          else
            let childLetter := Char.ofNat (p.1 + ASCII_A)
            if childLetter ∈ letterCounts then
              RecursiveFindTransposals fuel rootTrie childTrie
                (DecrementLetterCounts childLetter letterCounts) currentWordList
                (currentWord ++ [childLetter]) minWordLen maxWordLen
                minNumWords maxNumWords
            else [])

/-- Sequencing of a fallible step over a list: the result list, or none as
soon as one step panics.  Used to model loops whose body can panic. -/
def mapOptionM {β γ : Type} (f : β → Option γ) : List β → Option (List γ)
  | [] => some []
  | a :: l =>
      match f a, mapOptionM f l with
      | some b, some bs => some (b :: bs)
      | _, _ => none

theorem mapOptionM_mem {β γ : Type} {f : β → Option γ} :
    ∀ {l : List β} {bs : List γ}, mapOptionM f l = some bs →
      ∀ b ∈ bs, ∃ a ∈ l, f a = some b := by
  intro l
  induction l with
  | nil =>
    intro bs h b hb
    simp [mapOptionM] at h
    subst h
    cases hb
  | cons a l ih =>
    intro bs h b hb
    rw [mapOptionM] at h
    cases ha : f a with
    | none => rw [ha] at h; exact Option.noConfusion h
    | some b0 =>
      rw [ha] at h
      cases hl : mapOptionM f l with
      | none => rw [hl] at h; exact Option.noConfusion h
      | some bs0 =>
        rw [hl] at h
        simp at h
        subst h
        rcases List.mem_cons.mp hb with rfl | hmem
        · exact ⟨a, List.mem_cons_self a l, ha⟩
        · obtain ⟨a2, ha2, hfa2⟩ := ih hl b hmem
          exact ⟨a2, List.mem_cons_of_mem a ha2, hfa2⟩

/-- One starting branch of PerformTransposalSolve: read the root child slot
of the letter (an out-of-range index panics, modelled as none), skip an empty
slot, otherwise recurse with the letter consumed. -/
def transposalBranch (fuel : Nat) (dictionary : TrieNode) (letterCounts : Multiset Char)
    (minWordLen maxWordLen minNumWords maxNumWords : Nat) (letter : Char) :
    Option (List (List (List Char))) :=
  match dictionary.children.get? (byteIndex letter) with
  | none => none
  | some none => some []
  | some (some child) =>
      some (RecursiveFindTransposals fuel dictionary child
        (DecrementLetterCounts letter letterCounts) [] [letter]
        minWordLen maxWordLen minNumWords maxNumWords)

/-- Function PerformTransposalSolve of transposal.go: one recursive branch
per letter present in the counts whose root child slot is occupied, solutions
drained from the channel and kept when they pass the word-count and
word-length filters. -/
def PerformTransposalSolve (fuel : Nat) (cipherText : List Char) (dictionary : TrieNode)
    (minWordLen maxWordLen minNumWords maxNumWords : Nat) :
    Option (List (List (List Char))) :=
  (mapOptionM
      (transposalBranch fuel dictionary (CreateLetterCountsMap cipherText)
        minWordLen maxWordLen minNumWords maxNumWords)
      (letterKeys cipherText)).map
    (fun branches => branches.join.filter
      (solutionPassesFilters minWordLen maxWordLen minNumWords maxNumWords))

/-- Letter accounting of the transposal recursion: every solution a call
emits carries exactly the letters of the in-progress words plus the letters
still owed by the counts. -/
theorem recursiveFindTransposals_letters (fuel : Nat) (root : TrieNode) :
    ∀ (cur : TrieNode) (counts : Multiset Char) (wl : List (List Char))
      (cw : List Char) (mw xw mn xn : Nat) (sol : List (List Char)),
      sol ∈ RecursiveFindTransposals fuel root cur counts wl cw mw xw mn xn →
      ((sol.join : List Char) : Multiset Char) =
        ((wl.join : List Char) : Multiset Char) + (cw : Multiset Char) + counts := by
  induction fuel with
  | zero =>
    intro cur counts wl cw mw xw mn xn sol h
    cases h
  | succ fuel ih =>
    intro cur counts wl cw mw xw mn xn sol h
    rw [RecursiveFindTransposals] at h
    by_cases h0 : counts = 0 ∧ cur.atWordBoundary = true
    · rw [if_pos h0] at h
      rcases List.mem_singleton.mp h with rfl
      simp [h0.1]
    · rw [if_neg h0] at h
      by_cases h1 : counts = 0
      · rw [if_pos h1] at h
        cases h
      · rw [if_neg h1] at h
        rw [List.mem_flatMap] at h
        obtain ⟨p, hp, hsol⟩ := h
        obtain ⟨i, o⟩ := p
        cases o with
        | none => cases hsol
        | some childTrie =>
          simp only at hsol
          by_cases hlast : i = cur.children.length - 1
          · rw [if_pos hlast] at hsol
            by_cases hbreak : cur.atWordBoundary = true ∧ (wl ++ [cw]).length ≤ xn
            · rw [if_pos hbreak] at hsol
              have := ih root counts (wl ++ [cw]) [] mw xw mn xn sol hsol
              rw [this]
              simp [add_assoc]
            · rw [if_neg hbreak] at hsol
              cases hsol
          · rw [if_neg hlast] at hsol
            by_cases hmem : Char.ofNat (i + ASCII_A) ∈ counts
            · rw [if_pos hmem] at hsol
              have := ih childTrie (DecrementLetterCounts (Char.ofNat (i + ASCII_A)) counts)
                wl (cw ++ [Char.ofNat (i + ASCII_A)]) mw xw mn xn sol hsol
              rw [this]
              have h2 : ({Char.ofNat (i + ASCII_A)} : Multiset Char) +
                  counts.erase (Char.ofNat (i + ASCII_A)) = counts := by
                rw [Multiset.singleton_add, Multiset.cons_erase hmem]
              rw [DecrementLetterCounts]
              have h3 : ((cw ++ [Char.ofNat (i + ASCII_A)] : List Char) : Multiset Char) =
                  (cw : Multiset Char) + {Char.ofNat (i + ASCII_A)} := rfl
              rw [h3]
              simp only [add_assoc]
              rw [h2]
            · rw [if_neg hmem] at hsol
              cases hsol

theorem letterKeys_mem {input : List Char} {c : Char} (h : c ∈ letterKeys input) :
    c ∈ CreateLetterCountsMap input := by
  rw [letterKeys, List.mem_dedup] at h
  rw [CreateLetterCountsMap]
  exact Multiset.mem_coe.mpr h

/-!  Fixture shared by the transposal and letter-bank claims: the dictionary
{LENDS, NEEDLESS, NEEDLES, DELL, SEND} and the input LENDS. -/

def lendsW : List Char := ['L', 'E', 'N', 'D', 'S']

def needlessW : List Char := ['N', 'E', 'E', 'D', 'L', 'E', 'S', 'S']

def needlesW : List Char := ['N', 'E', 'E', 'D', 'L', 'E', 'S']

def dellW : List Char := ['D', 'E', 'L', 'L']

def sendW : List Char := ['S', 'E', 'N', 'D']

/-- Dictionary trie for the fixture of claims C1 and C4. -/
def fixtureDict : TrieNode := buildTrie27 [lendsW, needlessW, needlesW, dellW, sendW]

/-- Counterexample to claim C1 as frozen: on the fixture dictionary with
input LENDS and minNumWords = maxNumWords = 1 the claimed member NEEDLESS is
absent from the returned results (its eight letters cannot equal the
five-letter multiset of LENDS); the claimed result set
{LENDS, NEEDLESS, NEEDLES} is therefore not what the solver returns. -/
theorem transposal_fixture_counterexample :
    [needlessW] ∉ (PerformTransposalSolve 32 lendsW fixtureDict 1 100 1 1).getD [] := by
  decide

/-- Claim C1 (amended: the fixture result is exactly {LENDS}; NEEDLESS and
NEEDLES belong to the letter-bank fixture, not the transposal one): every
solution returned by PerformTransposalSolve concatenates to exactly the
input's letter multiset, and on the fixture dictionary with input LENDS and
minNumWords = maxNumWords = 1 the result is exactly [[LENDS]], with DELL and
SEND (and NEEDLESS, NEEDLES) absent. -/
theorem transposal_multiset_invariant :
    (∀ (fuel : Nat) (ct : List Char) (dict : TrieNode) (mw xw mn xn : Nat)
        (sols : List (List (List Char))),
        PerformTransposalSolve fuel ct dict mw xw mn xn = some sols →
        ∀ sol ∈ sols,
          ((sol.join : List Char) : Multiset Char) = CreateLetterCountsMap ct)
    ∧ PerformTransposalSolve 32 lendsW fixtureDict 1 100 1 1 = some [[lendsW]] := by
  constructor
  · intro fuel ct dict mw xw mn xn sols h sol hsol
    rw [PerformTransposalSolve] at h
    cases hmap : mapOptionM
        (transposalBranch fuel dict (CreateLetterCountsMap ct) mw xw mn xn)
        (letterKeys ct) with
    | none => rw [hmap] at h; exact Option.noConfusion h
    | some branches =>
      rw [hmap] at h
      simp only [Option.map_some', Option.some_inj] at h
      subst h
      have hsol2 := List.mem_of_mem_filter hsol
      rw [List.mem_join] at hsol2
      obtain ⟨branch, hbranch, hsolb⟩ := hsol2
      obtain ⟨letter, hletter, hfb⟩ := mapOptionM_mem hmap branch hbranch
      rw [transposalBranch] at hfb
      cases hslot : dict.children.get? (byteIndex letter) with
      | none => rw [hslot] at hfb; exact Option.noConfusion hfb
      | some o =>
        rw [hslot] at hfb
        cases o with
        | none =>
          simp at hfb
          subst hfb
          cases hsolb
        | some child =>
          simp at hfb
          subst hfb
          have := recursiveFindTransposals_letters fuel dict child
            (DecrementLetterCounts letter (CreateLetterCountsMap ct)) [] [letter]
            mw xw mn xn sol hsolb
          rw [this]
          rw [DecrementLetterCounts]
          have hmem : letter ∈ CreateLetterCountsMap ct := letterKeys_mem hletter
          simp only [List.join_nil, Multiset.coe_nil, Multiset.coe_singleton, zero_add]
          rw [Multiset.singleton_add, Multiset.cons_erase hmem]
  · decide

/-- Witness for claim C1: the invariant instantiated at the fixture run; the
single returned solution LENDS carries exactly the letters of LENDS. -/
theorem transposal_multiset_invariant_witness :
    ((([lendsW] : List (List Char)).join : List Char) : Multiset Char) =
      CreateLetterCountsMap lendsW :=
  transposal_multiset_invariant.1 32 lendsW fixtureDict 1 100 1 1 [[lendsW]]
    transposal_multiset_invariant.2 [lendsW] (List.mem_singleton.mpr rfl)

/-!  Letter-bank solving, translated from src/cmd/letterbank.go.  The Go
letter sets (map[string]bool holding only true entries) are Finset Char;
copyLetterSet followed by marking a letter used is Finset insert, and the
length comparison of the two maps is a card comparison. -/

/-- Function CreateLetterSet of letterbank.go: the set of unique letters of
the input, ignoring non-letters and uppercasing. -/
def CreateLetterSet (input : List Char) : Finset Char :=
  ((input.filter (fun c => isAsciiLetter c)).map upperChar).toFinset

/-- Function RecursiveFindLetterBanks of letterbank.go.  Emission happens
when every letter of the source set has been used and the node is a word
boundary, and deliberately does not end the branch (longer words over the
same letters remain valid); the child loop then mirrors
RecursiveFindTransposals with the multiset condition replaced by set
membership and used-letter tracking.  Fuel bounds the recursion depth. -/
def RecursiveFindLetterBanks (fuel : Nat) (rootTrie currentTrie : TrieNode)
    (letterSet usedLetters : Finset Char) (currentWordList : List (List Char))
    (currentWord : List Char) (minWordLen maxWordLen minNumWords maxNumWords : Nat) :
    List (List (List Char)) :=
  match fuel with
  | 0 => []
  | fuel + 1 =>
    (if usedLetters.card = letterSet.card ∧ currentTrie.atWordBoundary = true then
        [currentWordList ++ [currentWord]]
      else []) ++
    currentTrie.children.enum.flatMap (fun p =>
      match p.2 with
      | none => []
      | some childTrie =>
        if p.1 = currentTrie.children.length - 1 then
          if currentTrie.atWordBoundary = true ∧
              (currentWordList ++ [currentWord]).length ≤ maxNumWords then
            RecursiveFindLetterBanks fuel rootTrie rootTrie letterSet usedLetters
              (currentWordList ++ [currentWord]) [] minWordLen maxWordLen
              minNumWords maxNumWords
          else []
        else
          let childLetter := Char.ofNat (p.1 + ASCII_A)
          if childLetter ∈ letterSet then
            RecursiveFindLetterBanks fuel rootTrie childTrie letterSet
              (insert childLetter usedLetters) currentWordList
              (currentWord ++ [childLetter]) minWordLen maxWordLen
              minNumWords maxNumWords
          else [])

/-- One starting branch of PerformLetterBankSolve: read the root child slot
of the letter (out-of-range index panics, modelled none), skip an empty
slot, otherwise recurse with the letter marked used. -/
def letterBankBranch (fuel : Nat) (dictionary : TrieNode) (letterSet : Finset Char)
    (minWordLen maxWordLen minNumWords maxNumWords : Nat) (letter : Char) :
    Option (List (List (List Char))) :=
  match dictionary.children.get? (byteIndex letter) with
  | none => none
  | some none => some []
  | some (some child) =>
      some (RecursiveFindLetterBanks fuel dictionary child letterSet {letter} [] [letter]
        minWordLen maxWordLen minNumWords maxNumWords)

/-- Function PerformLetterBankSolve of letterbank.go: one branch per letter
of the set whose root child slot is occupied, solutions filtered by the
word-count and word-length bounds. -/
def PerformLetterBankSolve (fuel : Nat) (sourceText : List Char) (dictionary : TrieNode)
    (minWordLen maxWordLen minNumWords maxNumWords : Nat) :
    Option (List (List (List Char))) :=
  (mapOptionM
      (letterBankBranch fuel dictionary (CreateLetterSet sourceText)
        minWordLen maxWordLen minNumWords maxNumWords)
      (letterKeys sourceText)).map
    (fun branches => branches.join.filter
      (solutionPassesFilters minWordLen maxWordLen minNumWords maxNumWords))

theorem toFinset_append_snoc (l1 l2 : List Char) (c : Char) :
    (l1 ++ (l2 ++ [c])).toFinset = insert c ((l1 ++ l2).toFinset) := by
  ext x
  simp [or_comm, or_assoc, or_left_comm]

/-- Letter accounting of the letter-bank recursion: under the invariant that
the used set is exactly the letters of the in-progress words and stays
inside the source set, every emitted solution covers exactly the source
set. -/
theorem recursiveFindLetterBanks_letters (fuel : Nat) (root : TrieNode) :
    ∀ (cur : TrieNode) (letterSet usedLetters : Finset Char)
      (wl : List (List Char)) (cw : List Char) (mw xw mn xn : Nat)
      (sol : List (List Char)),
      usedLetters = (wl.join ++ cw).toFinset →
      usedLetters ⊆ letterSet →
      sol ∈ RecursiveFindLetterBanks fuel root cur letterSet usedLetters wl cw mw xw mn xn →
      (sol.join).toFinset = letterSet := by
  induction fuel with
  | zero =>
    intro cur letterSet usedLetters wl cw mw xw mn xn sol _ _ h
    cases h
  | succ fuel ih =>
    intro cur letterSet usedLetters wl cw mw xw mn xn sol hused hsub h
    rw [RecursiveFindLetterBanks] at h
    rcases List.mem_append.mp h with hemit | hrec
    · by_cases hcond : usedLetters.card = letterSet.card ∧ cur.atWordBoundary = true
      · rw [if_pos hcond] at hemit
        rcases List.mem_singleton.mp hemit with rfl
        have heq : usedLetters = letterSet :=
          Finset.eq_of_subset_of_card_le hsub (le_of_eq hcond.1.symm)
        rw [← heq, hused]
        simp
      · rw [if_neg hcond] at hemit
        cases hemit
    · rw [List.mem_flatMap] at hrec
      obtain ⟨p, hp, hsol⟩ := hrec
      obtain ⟨i, o⟩ := p
      cases o with
      | none => cases hsol
      | some childTrie =>
        simp only at hsol
        by_cases hlast : i = cur.children.length - 1
        · rw [if_pos hlast] at hsol
          by_cases hbreak : cur.atWordBoundary = true ∧ (wl ++ [cw]).length ≤ xn
          · rw [if_pos hbreak] at hsol
            refine ih root letterSet usedLetters (wl ++ [cw]) [] mw xw mn xn sol ?_ hsub hsol
            rw [hused]
            simp
          · rw [if_neg hbreak] at hsol
            cases hsol
        · rw [if_neg hlast] at hsol
          by_cases hmem : Char.ofNat (i + ASCII_A) ∈ letterSet
          · rw [if_pos hmem] at hsol
            refine ih childTrie letterSet (insert (Char.ofNat (i + ASCII_A)) usedLetters)
              wl (cw ++ [Char.ofNat (i + ASCII_A)]) mw xw mn xn sol ?_ ?_ hsol
            · rw [hused, toFinset_append_snoc]
            · exact Finset.insert_subset_iff.mpr ⟨hmem, hsub⟩
          · rw [if_neg hmem] at hsol
            cases hsol

theorem letterKeys_mem_set {input : List Char} {c : Char} (h : c ∈ letterKeys input) :
    c ∈ CreateLetterSet input := by
  rw [letterKeys, List.mem_dedup] at h
  rw [CreateLetterSet, List.mem_toFinset]
  exact h

set_option maxRecDepth 16384 in
/-- Counterexample to claim C4 as frozen: with the full fixture dictionary
{LENDS, NEEDLESS, NEEDLES, DELL, SEND}, input LENDS and minimum word length
6, the solver's result also contains NEEDLES (7 letters, unique letters
exactly {D,E,L,N,S}), not only NEEDLESS. -/
theorem letterbank_fixture_counterexample :
    [needlesW] ∈ (PerformLetterBankSolve 24 lendsW fixtureDict 6 100 1 1).getD [] ∧
      needlesW ≠ needlessW := by
  decide

set_option maxRecDepth 16384 in
/-- Claim C4 (amended: on the stated five-word fixture the result is exactly
{NEEDLES, NEEDLESS} - NEEDLES also clears the length filter; the claim's
only-NEEDLESS outcome belongs to a two-word dictionary without NEEDLES):
every solution returned by PerformLetterBankSolve has combined unique
letters exactly equal to the input's unique-letter set, and the fixture
run returns exactly [[NEEDLES], [NEEDLESS]]. -/
theorem letterbank_set_invariant :
    (∀ (fuel : Nat) (input : List Char) (dict : TrieNode) (mw xw mn xn : Nat)
        (sols : List (List (List Char))),
        PerformLetterBankSolve fuel input dict mw xw mn xn = some sols →
        ∀ sol ∈ sols, (sol.join).toFinset = CreateLetterSet input)
    ∧ PerformLetterBankSolve 24 lendsW fixtureDict 6 100 1 1 =
        some [[needlesW], [needlessW]] := by
  constructor
  · intro fuel input dict mw xw mn xn sols h sol hsol
    rw [PerformLetterBankSolve] at h
    cases hmap : mapOptionM
        (letterBankBranch fuel dict (CreateLetterSet input) mw xw mn xn)
        (letterKeys input) with
    | none => rw [hmap] at h; exact Option.noConfusion h
    | some branches =>
      rw [hmap] at h
      simp only [Option.map_some', Option.some_inj] at h
      subst h
      have hsol2 := List.mem_of_mem_filter hsol
      rw [List.mem_join] at hsol2
      obtain ⟨branch, hbranch, hsolb⟩ := hsol2
      obtain ⟨letter, hletter, hfb⟩ := mapOptionM_mem hmap branch hbranch
      rw [letterBankBranch] at hfb
      cases hslot : dict.children.get? (byteIndex letter) with
      | none => rw [hslot] at hfb; exact Option.noConfusion hfb
      | some o =>
        rw [hslot] at hfb
        cases o with
        | none =>
          simp at hfb
          subst hfb
          cases hsolb
        | some child =>
          simp at hfb
          subst hfb
          refine recursiveFindLetterBanks_letters fuel dict child
            (CreateLetterSet input) {letter} [] [letter] mw xw mn xn sol ?_ ?_ hsolb
          · simp
          · exact Finset.singleton_subset_iff.mpr (letterKeys_mem_set hletter)
  · decide

/-- Witness for claim C4: the invariant instantiated at the fixture run; the
returned solution NEEDLES covers exactly the unique letters of LENDS. -/
theorem letterbank_set_invariant_witness :
    (([needlesW] : List (List Char)).join).toFinset = CreateLetterSet lendsW :=
  letterbank_set_invariant.1 24 lendsW fixtureDict 6 100 1 1
    [[needlesW], [needlessW]] letterbank_set_invariant.2 [needlesW] (by simp)

/-!  Substitution-cipher solving, translated from src/cmd/substitution.go.
Go bytes are modelled as Char (the solver handles ASCII ciphertext), the
map[byte]byte ByteMap as an association list whose first binding for a key
is its value - faithful because CollectValidMaps only ever inserts a key
that is absent. -/

/-- Structure SubstitutionWordMatches of substitution.go: the ciphertext
word, its pattern, and the dictionary words sharing that pattern. -/
structure SubstitutionWordMatches : Type where
  Word : List Char
  CryptPattern : List Char
  PatternMatches : List (List Char)
deriving DecidableEq

/-- Function CopyByteMap of substitution.go.  In the pure embedding copying
is the identity; the ownership discipline the Go copy implements (each
recursion level owns its own map) is captured by the extension theorem for
CollectValidMaps below. -/
def CopyByteMap (input : List (Char × Char)) : List (Char × Char) := input

/-- One position of the candidate-checking loop in CollectValidMaps: an
unmapped ciphertext letter gains a mapping, a mapped one must agree with the
candidate's letter, otherwise the candidate fails. -/
def tryAddMapping (m : List (Char × Char)) (cryptByte plainByte : Char) :
    Option (List (Char × Char)) :=
  match m.lookup cryptByte with
  | none => some ((cryptByte, plainByte) :: m)
  | some existing => if existing = plainByte then some m else none

/-- Candidate-checking loop of CollectValidMaps over the positions of the
word paired with the candidate (allBytesWorked = none means the candidate
conflicted and is rejected). -/
def extendByteMap (m : List (Char × Char)) :
    List (Char × Char) → Option (List (Char × Char))
  | [] => some m
  | (cb, pb) :: rest =>
      match tryAddMapping m cb pb with
      | none => none
      | some m2 => extendByteMap m2 rest

/-- Function CollectValidMaps of substitution.go: with no word left the
current map is valid and emitted; otherwise each candidate of the head word
either conflicts (contributing nothing) or extends a private copy of the map
and recurses on the remaining words.  The Go early return for an empty
candidate list is the empty flatMap.  Channel emissions are collected in
recursion order. -/
def CollectValidMaps : List SubstitutionWordMatches → List (Char × Char) →
    List (List (Char × Char))
  | [], currentMap => [currentMap]
  | wm :: rest, currentMap =>
      wm.PatternMatches.flatMap (fun currentMatch =>
        match extendByteMap (CopyByteMap currentMap) (wm.Word.zip currentMatch) with
        | none => []
        | some copyMap => CollectValidMaps rest copyMap)

theorem lookup_cons_ne {m : List (Char × Char)} {k cb pb : Char} (h : k ≠ cb) :
    ((cb, pb) :: m).lookup k = m.lookup k := by
  have hbeq : (k == cb) = false := beq_eq_false_iff_ne.mpr h
  simp [List.lookup, hbeq]

theorem tryAddMapping_absent_eq {m : List (Char × Char)} {cb : Char} (pb : Char)
    (hl : m.lookup cb = none) :
    tryAddMapping m cb pb = some ((cb, pb) :: m) := by
  rw [tryAddMapping, hl]

theorem tryAddMapping_present_eq {m : List (Char × Char)} {cb existing : Char} (pb : Char)
    (hl : m.lookup cb = some existing) :
    tryAddMapping m cb pb = if existing = pb then some m else none := by
  rw [tryAddMapping, hl]

theorem tryAddMapping_preserves {m m2 : List (Char × Char)} {cb pb : Char}
    (h : tryAddMapping m cb pb = some m2) :
    ∀ k v, m.lookup k = some v → m2.lookup k = some v := by
  intro k v hk
  cases hl : m.lookup cb with
  | none =>
    rw [tryAddMapping_absent_eq pb hl] at h
    simp at h
    subst h
    have hne : k ≠ cb := by
      intro hEq
      rw [hEq, hl] at hk
      exact Option.noConfusion hk
    rw [lookup_cons_ne hne]
    exact hk
  | some existing =>
    rw [tryAddMapping_present_eq pb hl] at h
    by_cases hpb : existing = pb
    · rw [if_pos hpb] at h
      simp at h
      subst h
      exact hk
    · rw [if_neg hpb] at h
      exact Option.noConfusion h

theorem tryAddMapping_assigns {m m2 : List (Char × Char)} {cb pb : Char}
    (h : tryAddMapping m cb pb = some m2) : m2.lookup cb = some pb := by
  cases hl : m.lookup cb with
  | none =>
    rw [tryAddMapping_absent_eq pb hl] at h
    simp at h
    subst h
    simp [List.lookup]
  | some existing =>
    rw [tryAddMapping_present_eq pb hl] at h
    by_cases hpb : existing = pb
    · rw [if_pos hpb] at h
      simp at h
      subst h
      rw [hl, hpb]
    · rw [if_neg hpb] at h
      exact Option.noConfusion h

theorem extendByteMap_preserves {zs : List (Char × Char)} :
    ∀ {m m2 : List (Char × Char)}, extendByteMap m zs = some m2 →
      ∀ k v, m.lookup k = some v → m2.lookup k = some v := by
  induction zs with
  | nil =>
    intro m m2 h k v hk
    simp [extendByteMap] at h
    subst h
    exact hk
  | cons p rest ih =>
    intro m m2 h k v hk
    obtain ⟨cb, pb⟩ := p
    rw [extendByteMap] at h
    cases ht : tryAddMapping m cb pb with
    | none => rw [ht] at h; exact Option.noConfusion h
    | some m1 =>
      rw [ht] at h
      exact ih h k v (tryAddMapping_preserves ht k v hk)

theorem extendByteMap_assigns {zs : List (Char × Char)} :
    ∀ {m m2 : List (Char × Char)}, extendByteMap m zs = some m2 →
      ∀ p ∈ zs, m2.lookup p.1 = some p.2 := by
  induction zs with
  | nil =>
    intro m m2 _ p hp
    cases hp
  | cons q rest ih =>
    intro m m2 h p hp
    obtain ⟨cb, pb⟩ := q
    rw [extendByteMap] at h
    cases ht : tryAddMapping m cb pb with
    | none => rw [ht] at h; exact Option.noConfusion h
    | some m1 =>
      rw [ht] at h
      rcases List.mem_cons.mp hp with rfl | hmem
      · exact extendByteMap_preserves h cb pb (tryAddMapping_assigns ht)
      · exact ih h p hmem

/-- Conflict rejection: a candidate whose letter at some position disagrees
with an assignment already present in the entering map is rejected by the
checking loop. -/
theorem extendByteMap_conflict {zs : List (Char × Char)} :
    ∀ {m : List (Char × Char)},
      (∃ p ∈ zs, ∃ b, m.lookup p.1 = some b ∧ b ≠ p.2) →
      extendByteMap m zs = none := by
  induction zs with
  | nil =>
    intro m h
    obtain ⟨p, hp, _⟩ := h
    cases hp
  | cons q rest ih =>
    intro m h
    obtain ⟨cb, pb⟩ := q
    obtain ⟨p, hp, b, hb, hbne⟩ := h
    rw [extendByteMap]
    rcases List.mem_cons.mp hp with rfl | hmem
    · have hb2 : m.lookup cb = some b := hb
      have hbne2 : b ≠ pb := hbne
      rw [tryAddMapping_present_eq pb hb2, if_neg hbne2]
    · cases ht : tryAddMapping m cb pb with
      | none => rfl
      | some m1 =>
        exact ih ⟨p, hmem, b, tryAddMapping_preserves ht p.1 b hb, hbne⟩

theorem collectValidMaps_extends :
    ∀ (ms : List SubstitutionWordMatches) (m0 : List (Char × Char)) m,
      m ∈ CollectValidMaps ms m0 →
      ∀ k v, m0.lookup k = some v → m.lookup k = some v := by
  intro ms
  induction ms with
  | nil =>
    intro m0 m hm k v hk
    rcases List.mem_singleton.mp hm with rfl
    exact hk
  | cons wm rest ih =>
    intro m0 m hm k v hk
    rw [CollectValidMaps, List.mem_flatMap] at hm
    obtain ⟨cand, hcand, hmem⟩ := hm
    cases hx : extendByteMap (CopyByteMap m0) (wm.Word.zip cand) with
    | none => rw [hx] at hmem; cases hmem
    | some m1 =>
      rw [hx] at hmem
      exact ih m1 m hmem k v (extendByteMap_preserves hx k v hk)

theorem map_lookup_of_extension {w cand : List Char} {m1 m : List (Char × Char)}
    (hsub : ∀ k v, m1.lookup k = some v → m.lookup k = some v)
    (h : w.map (fun c => m1.lookup c) = cand.map some) :
    w.map (fun c => m.lookup c) = cand.map some := by
  have hlen : w.length = cand.length := by
    have := congrArg List.length h
    simpa using this
  apply List.ext_getElem
  · simpa using hlen
  · intro i h1 h2
    have h1w : i < w.length := by simpa using h1
    have h1c : i < cand.length := by omega
    have := congrArg (fun l => l.getD i none) h
    simp only [List.getD_eq_getElem?_getD] at this
    rw [List.getElem?_map, List.getElem?_map] at this
    rw [List.getElem?_eq_getElem h1w, List.getElem?_eq_getElem h1c] at this
    simp at this
    simp only [List.getElem_map]
    exact hsub _ _ this

theorem extendByteMap_decodes {w cand : List Char} {m0 m1 : List (Char × Char)}
    (hlen : cand.length = w.length)
    (h : extendByteMap m0 (w.zip cand) = some m1) :
    w.map (fun c => m1.lookup c) = cand.map some := by
  apply List.ext_getElem
  · simpa using hlen.symm
  · intro i h1 h2
    have h1w : i < w.length := by simpa using h1
    have h1c : i < cand.length := by omega
    have hz : i < (w.zip cand).length := by
      rw [List.length_zip]
      omega
    have hmem : (w.get ⟨i, h1w⟩, cand.get ⟨i, h1c⟩) ∈ w.zip cand := by
      have : (w.zip cand).get ⟨i, hz⟩ = (w.get ⟨i, h1w⟩, cand.get ⟨i, h1c⟩) := by
        simp [List.get_zip]
      rw [← this]
      exact List.get_mem _ _ _
    have := extendByteMap_assigns h _ hmem
    simp only [List.getElem_map]
    simpa using this

/-- Claim C3: every map emitted by CollectValidMaps (started from the empty
map) decodes every ciphertext word, position by position, onto one of that
word's pattern-match candidates (candidates share the word's pattern, hence
its length); every emitted map consistently extends the map its recursion
level received (per-letter single mapping, sibling branches unaffected); and
a candidate conflicting with an existing assignment is rejected by the
checking loop, contributing no emission. -/
theorem substitution_backtracking_consistency :
    (∀ (ms : List SubstitutionWordMatches),
        (∀ wm ∈ ms, ∀ cand ∈ wm.PatternMatches, cand.length = wm.Word.length) →
        ∀ m ∈ CollectValidMaps ms [], ∀ wm ∈ ms,
          ∃ cand ∈ wm.PatternMatches,
            wm.Word.map (fun c => m.lookup c) = cand.map some)
    ∧ (∀ (ms : List SubstitutionWordMatches) (m0 : List (Char × Char)) m,
        m ∈ CollectValidMaps ms m0 →
        ∀ k v, m0.lookup k = some v → m.lookup k = some v)
    ∧ (∀ (w cand : List Char) (m0 : List (Char × Char)),
        (∃ p ∈ w.zip cand, ∃ b, m0.lookup p.1 = some b ∧ b ≠ p.2) →
        extendByteMap m0 (w.zip cand) = none) := by
  refine ⟨?_, collectValidMaps_extends, fun w cand m0 h => extendByteMap_conflict h⟩
  have main : ∀ (ms : List SubstitutionWordMatches) (m0 : List (Char × Char)),
      (∀ wm ∈ ms, ∀ cand ∈ wm.PatternMatches, cand.length = wm.Word.length) →
      ∀ m ∈ CollectValidMaps ms m0, ∀ wm ∈ ms,
        ∃ cand ∈ wm.PatternMatches,
          wm.Word.map (fun c => m.lookup c) = cand.map some := by
    intro ms
    induction ms with
    | nil =>
      intro m0 _ m _ wm hwm
      cases hwm
    | cons wm0 rest ih =>
      intro m0 hlen m hm wm hwm
      rw [CollectValidMaps, List.mem_flatMap] at hm
      obtain ⟨cand, hcand, hmem⟩ := hm
      cases hx : extendByteMap (CopyByteMap m0) (wm0.Word.zip cand) with
      | none => rw [hx] at hmem; cases hmem
      | some m1 =>
        rw [hx] at hmem
        rcases List.mem_cons.mp hwm with rfl | hwmrest
        · refine ⟨cand, hcand, ?_⟩
          have hc : cand.length = wm.Word.length :=
            hlen wm (List.mem_cons_self wm rest) cand hcand
          have hdec := extendByteMap_decodes hc hx
          exact map_lookup_of_extension
            (fun k v hk => collectValidMaps_extends rest m1 m hmem k v hk) hdec
        · exact ih m1 (fun q hq => hlen q (List.mem_cons_of_mem wm0 hq)) m hmem wm hwmrest
  intro ms hlen m hm wm hwm
  exact main ms [] hlen m hm wm hwm

/-- Witness for claim C3: the single-word match list with ciphertext AB and
candidate XY; the emitted map decodes AB to XY, extends the empty map, and
the conflict clause fires on a map already sending A elsewhere. -/
theorem substitution_backtracking_consistency_witness :
    (∃ cand ∈ [(['X', 'Y'] : List Char)],
        (['A', 'B'] : List Char).map
            (fun c => ([(('B', 'Y')), (('A', 'X'))] : List (Char × Char)).lookup c) =
          cand.map some) ∧
    extendByteMap [(('A', 'Z'))] ((['A', 'B'] : List Char).zip ['X', 'Y']) = none := by
  constructor
  · exact substitution_backtracking_consistency.1
      [⟨['A', 'B'], ['A', 'B'], [['X', 'Y']]⟩] (by decide)
      [('B', 'Y'), ('A', 'X')] (by decide)
      ⟨['A', 'B'], ['A', 'B'], [['X', 'Y']]⟩ (by decide)
  · exact substitution_backtracking_consistency.2.2 ['A', 'B'] ['X', 'Y']
      [('A', 'Z')] ⟨('A', 'X'), by decide, 'Z', by decide, by decide⟩

/-- Function PartitionMatches of substitution.go: create count partitions
with empty candidate lists, then distribute the source's candidates
round-robin - candidate i is appended to partition i % count.  When the
source has at least one candidate and count is zero, the Go expression
index % count divides by zero and panics (modelled as none); with no
candidates the distribution loop never runs. -/
def PartitionMatches (count : Nat) (source : SubstitutionWordMatches) :
    Option (List SubstitutionWordMatches) :=
  if count = 0 ∧ source.PatternMatches ≠ [] then none
  else
    some (source.PatternMatches.enum.foldl
      (fun parts p => parts.modify
        (fun wm => ⟨wm.Word, wm.CryptPattern, wm.PatternMatches ++ [p.2]⟩)
        (p.1 % count))
      ((List.range count).map (fun _ => ⟨source.Word, source.CryptPattern, []⟩)))

/-- Function PartitionMapCollection of substitution.go: clamp the partition
count to the first word's candidate count when the latter is smaller,
partition the first word's candidates, and run CollectValidMaps from an
empty map once per partition head (the goroutines' shared channel is modelled
by concatenating the partitions' emissions).  Reading matchData[0] of an
empty list panics (modelled as none). -/
def PartitionMapCollection (matchData : List SubstitutionWordMatches)
    (concurrency : Nat) : Option (List (List (Char × Char))) :=
  match matchData with
  | [] => none
  | first :: rest =>
      let partitionCount :=
        if first.PatternMatches.length < concurrency then first.PatternMatches.length
        else concurrency
      (PartitionMatches partitionCount first).map (fun heads =>
        heads.flatMap (fun curHead => CollectValidMaps (curHead :: rest) []))

theorem partitionMatches_length {count : Nat} {source : SubstitutionWordMatches}
    {parts : List SubstitutionWordMatches}
    (h : PartitionMatches count source = some parts) : parts.length = count := by
  have hfold : ∀ (l : List (Nat × List Char)) (init : List SubstitutionWordMatches),
      (l.foldl (fun parts p => parts.modify
        (fun wm => ⟨wm.Word, wm.CryptPattern, wm.PatternMatches ++ [p.2]⟩)
        (p.1 % count)) init).length = init.length := by
    intro l
    induction l with
    | nil => intro init; rfl
    | cons p l ih =>
      intro init
      rw [List.foldl_cons, ih]
      exact List.length_modify _ _ _
  rw [PartitionMatches] at h
  by_cases hc : count = 0 ∧ source.PatternMatches ≠ []
  · rw [if_pos hc] at h
    exact Option.noConfusion h
  · rw [if_neg hc] at h
    simp only [Option.some_inj] at h
    subst h
    rw [hfold]
    simp

theorem partitionMatches_isSome {count : Nat} {source : SubstitutionWordMatches}
    (h : 1 ≤ count ∨ source.PatternMatches = []) :
    (PartitionMatches count source).isSome = true := by
  rw [PartitionMatches]
  have hc : ¬ (count = 0 ∧ source.PatternMatches ≠ []) := by
    rcases h with h1 | h2
    · rintro ⟨rfl, _⟩; omega
    · rintro ⟨_, hne⟩; exact hne h2
  rw [if_neg hc]
  rfl

/-- Counterexample to claim C5 as frozen: a word-match list whose first entry
has one candidate, run with concurrency zero, does not run to completion -
the clamp only fires when the candidate count is strictly below the
concurrency, so partitionCount stays zero and the round-robin index
index % 0 faults (integer division by zero), modelled as none. -/
theorem partition_zero_concurrency_counterexample :
    PartitionMapCollection
      [⟨['A'], ['A'], [['B']]⟩] 0 = none := rfl

/-- Claim C5 (amended: the fault-freedom and the clamp hold for every
concurrency of at least one; a concurrency of zero is not clamped and
faults with a division by zero whenever the first word has any candidate):
for concurrency at least 1, PartitionMapCollection on a non-empty word-match
list runs to completion, the effective partition count is the concurrency
clamped down to the first word's candidate count, and the number of
partitions handed to the workers equals that clamped count. -/
theorem partition_concurrency_clamped :
    (∀ (first : SubstitutionWordMatches) (rest : List SubstitutionWordMatches)
        (conc : Nat), 1 ≤ conc →
        ∃ heads,
          PartitionMatches (min first.PatternMatches.length conc) first = some heads ∧
          PartitionMapCollection (first :: rest) conc =
            some (heads.flatMap (fun curHead => CollectValidMaps (curHead :: rest) [])) ∧
          heads.length = min first.PatternMatches.length conc)
    ∧ (∀ (first : SubstitutionWordMatches) (rest : List SubstitutionWordMatches),
        first.PatternMatches ≠ [] →
        PartitionMapCollection (first :: rest) 0 = none) := by
  constructor
  · intro first rest conc hconc
    have hclamp :
        (if first.PatternMatches.length < conc then first.PatternMatches.length
          else conc) = min first.PatternMatches.length conc := by
      rcases Nat.lt_or_ge first.PatternMatches.length conc with hlt | hge
      · rw [if_pos hlt, Nat.min_eq_left (Nat.le_of_lt hlt)]
      · rw [if_neg (Nat.not_lt.mpr hge), Nat.min_eq_right hge]
    have hsome : (PartitionMatches (min first.PatternMatches.length conc) first).isSome
        = true := by
      apply partitionMatches_isSome
      cases hms : first.PatternMatches with
      | nil => exact Or.inr rfl
      | cons q ms =>
        left
        simp only [List.length_cons]
        omega
    obtain ⟨heads, hheads⟩ := Option.isSome_iff_exists.mp hsome
    refine ⟨heads, hheads, ?_, partitionMatches_length hheads⟩
    rw [PartitionMapCollection]
    simp only [hclamp, hheads, Option.map_some']
  · intro first rest hne
    rw [PartitionMapCollection]
    have hnotlt : ¬ first.PatternMatches.length < 0 := by omega
    simp only [if_neg hnotlt]
    rw [show PartitionMatches 0 first = none from ?_]
    · rfl
    · rw [PartitionMatches, if_pos ⟨rfl, hne⟩]

/-- Witness for claim C5: the clamp applied to a two-candidate first word
with concurrency five (clamped to two partitions), and the zero-concurrency
fault on a one-candidate first word. -/
theorem partition_concurrency_clamped_witness :
    (∃ heads,
        PartitionMatches
            (min (SubstitutionWordMatches.mk ['A'] ['A'] [['B'], ['C']]).PatternMatches.length 5)
            (SubstitutionWordMatches.mk ['A'] ['A'] [['B'], ['C']]) = some heads ∧
          PartitionMapCollection [SubstitutionWordMatches.mk ['A'] ['A'] [['B'], ['C']]] 5 =
            some (heads.flatMap (fun curHead => CollectValidMaps [curHead] [])) ∧
          heads.length =
            min (SubstitutionWordMatches.mk ['A'] ['A'] [['B'], ['C']]).PatternMatches.length 5) ∧
      PartitionMapCollection [SubstitutionWordMatches.mk ['A'] ['A'] [['B'], ['C']]] 0 = none :=
  ⟨partition_concurrency_clamped.1 (SubstitutionWordMatches.mk ['A'] ['A'] [['B'], ['C']]) [] 5
      (by decide),
   partition_concurrency_clamped.2 (SubstitutionWordMatches.mk ['A'] ['A'] [['B'], ['C']]) []
      (by decide)⟩

/-!  The n-gram scanner of src/cmd/ngrams.go (ngramScanner.Scan).  The
embedded bufio byte scanner is the remaining input list; Scan examines one
byte at a time.  A single call to Scan has five possible outcomes, the
fifth being genuine non-termination: in the buffer-fill loop the non-letter
branch calls the inner scanner and discards its result, so once the input
is exhausted there the inner scanner keeps returning false with an empty
token, the regex keeps failing, and the loop re-enters the identical state
forever. -/

inductive ScanOutcome : Type where
  /-- Scan returns true; the buffer now holds the window and this input
  remains. -/
  | window (buffer : List Char) (rest : List Char) : ScanOutcome
  /-- Scan returns false with no error recorded (inner scanner exhausted at
  the top of Scan). -/
  | eof : ScanOutcome
  /-- Scan returns false after recording the short-input error (the text was
  not long enough to make an ngram). -/
  | short : ScanOutcome
  /-- Runtime fault: the slide path writes ngramBuffer[bufSize-1] with
  bufSize zero. -/
  | fault : ScanOutcome
  /-- The fill loop repeats an identical state with the inner scanner
  exhausted: the call to Scan never returns. -/
  | spin : ScanOutcome
deriving DecidableEq

/-- Buffer-fill loop of ngramScanner.Scan (the for-loop over
len(ngramBuffer) < bufSize), entered with the current token c: a non-letter
token advances the inner scanner, ignoring its result - if the input is
already exhausted the loop state repeats exactly, which is the spin outcome;
a letter is appended, returning a window when full, and advancing otherwise,
with the short-input error when the input ends. -/
def fillLoop (n : Nat) (trust : Bool) : Char → List Char → List Char → ScanOutcome
  | c, [], buffer =>
      if trust = false ∧ isAsciiLetter c = false then .spin
      else
        let buffer2 := buffer ++ [upperChar c]
        if buffer2.length = n then .window buffer2 [] else .short
  | c, d :: rest, buffer =>
      if trust = false ∧ isAsciiLetter c = false then fillLoop n trust d rest buffer
      else
        let buffer2 := buffer ++ [upperChar c]
        if buffer2.length = n then .window buffer2 (d :: rest)
        else fillLoop n trust d rest buffer2

/-- One call to ngramScanner.Scan with the given remaining input and buffer
state: exhausted input reports false (no error); a non-letter token recurses;
with a full buffer a letter slides the window (faulting when the requested
size is zero); otherwise the buffer-fill loop runs. -/
def ngramScan (n : Nat) (trust : Bool) : List Char → List Char → ScanOutcome
  | [], _ => .eof
  | c :: rest, buffer =>
    if trust = false ∧ isAsciiLetter c = false then ngramScan n trust rest buffer
    else if buffer.length = n then
      if n = 0 then .fault
      else .window (buffer.drop 1 ++ [upperChar c]) rest
    else fillLoop n trust c rest buffer

/-- Scan started from the state NewNgramScanner builds: an empty buffer. -/
def ngramScanFromStart (n : Nat) (trust : Bool) (input : List Char) : ScanOutcome :=
  ngramScan n trust input []

/-- Claim C6 is contradicted by the code: on the two-byte stream A. with
window length 2 (fewer than 2 letters), the first call to Scan never
terminates - after consuming the dot the fill loop discards the inner
scanner's false result and repeats its state forever - and on the stream
consisting of a single dot with window length 1, Scan returns false without
recording the short-input error.  The spec says the scan sequence is finite
and a stream too short for one window fails with ShortInputError. -/
theorem ngramScan_short_input_divergence :
    ngramScanFromStart 2 false ['A', '.'] = .spin ∧
    ngramScanFromStart 1 false ['.'] = .eof ∧
    ngramScanFromStart 3 false ['.', '.', '.', 'H', 'e'] = .short := by
  refine ⟨rfl, rfl, rfl⟩

/-!  Frequency-table loading, from PopulateFrequencyMapFromReader in
src/unnamed/part_008 (root.go).  The strconv.ParseFloat call is abstracted
as a parameter deciding which probability fields parse; the scanner's lines
are the input list.  The function's only outcomes are a completed table or
process termination: on a record with the wrong field count or an
unparseable probability it prints a diagnostic and calls os.Exit(1). -/

/-- Split of strings.Split(line, tab): fields between tab separators,
empties preserved. -/
def splitOnTab : List Char → List (List Char)
  | [] => [[]]
  | c :: rest =>
      match splitOnTab rest with
      | [] => [[c]]
      | s :: ss => if c = '\t' then [] :: s :: ss else (c :: s) :: ss

/-- Outcome of PopulateFrequencyMapFromReader: either the completed table
with the inferred ngram size, or termination of the process via
os.Exit(1). -/
inductive FreqMapOutcome (F : Type) : Type where
  | ok (table : List (List Char × F)) (ngramSize : Nat) : FreqMapOutcome F
  | exit : FreqMapOutcome F
deriving DecidableEq

/-- Function PopulateFrequencyMapFromReader of root.go: per line, split on
tab; a field count other than two, or a probability strconv.ParseFloat
rejects, prints and exits the process; otherwise the entry is recorded (the
newest binding first, mirroring map overwrite) and the ngram size is
inferred from the first record whose key length is taken while the size is
still zero. -/
def PopulateFrequencyMapFromReader {F : Type} (parseFloat : List Char → Option F) :
    List (List Char) → List (List Char × F) → Nat → FreqMapOutcome F
  | [], table, size => .ok table size
  | line :: rest, table, size =>
      let fields := splitOnTab line
      if fields.length ≠ 2 then .exit
      else
        match parseFloat (fields.getD 1 []) with
        | none => .exit
        | some f =>
            PopulateFrequencyMapFromReader parseFloat rest
              ((fields.getD 0 [], f) :: table)
              (if size = 0 then (fields.getD 0 []).length else size)

/-- Record that makes the loader exit: wrong field count or unparseable
probability field. -/
def malformedRecord {F : Type} (parseFloat : List Char → Option F)
    (line : List Char) : Prop :=
  (splitOnTab line).length ≠ 2 ∨ parseFloat ((splitOnTab line).getD 1 []) = none

/-- Counterexample to claim C7 as frozen: the single record ABC (no tab, so
one field) does not reach the caller as a typed failure - the function's
outcome is process termination via os.Exit(1), regardless of how floats
parse. -/
theorem freqmap_exit_counterexample :
    PopulateFrequencyMapFromReader (fun _ => some (0 : Int))
      [['A', 'B', 'C']] [] 0 = .exit := rfl

/-- Claim C7 (amended: the loader does exit the process instead of returning
a typed failure): PopulateFrequencyMapFromReader terminates the process
(os.Exit(1)) exactly when some record is malformed - wrong field count or
unparseable probability - and returns the completed map otherwise; no typed
failure path exists. -/
theorem freqmap_exit_iff_malformed {F : Type} (parseFloat : List Char → Option F) :
    ∀ (lines : List (List Char)) (table : List (List Char × F)) (size : Nat),
      PopulateFrequencyMapFromReader parseFloat lines table size = .exit ↔
        ∃ l ∈ lines, malformedRecord parseFloat l := by
  intro lines
  induction lines with
  | nil =>
    intro table size
    constructor
    · intro h
      exact absurd h (by rw [PopulateFrequencyMapFromReader]; exact fun h => FreqMapOutcome.noConfusion h)
    · rintro ⟨l, hl, _⟩
      cases hl
  | cons line rest ih =>
    intro table size
    rw [PopulateFrequencyMapFromReader]
    by_cases hf : (splitOnTab line).length ≠ 2
    · rw [if_pos hf]
      constructor
      · intro _
        exact ⟨line, List.mem_cons_self line rest, Or.inl hf⟩
      · intro _
        rfl
    · rw [if_neg hf]
      cases hp : parseFloat ((splitOnTab line).getD 1 []) with
      | none =>
        constructor
        · intro _
          exact ⟨line, List.mem_cons_self line rest, Or.inr hp⟩
        · intro _
          rfl
      | some f =>
        rw [ih]
        constructor
        · rintro ⟨l, hl, hm⟩
          exact ⟨l, List.mem_cons_of_mem line hl, hm⟩
        · rintro ⟨l, hl, hm⟩
          rcases List.mem_cons.mp hl with rfl | hmem
          · rcases hm with h1 | h2
            · exact absurd h1 hf
            · rw [hp] at h2; exact absurd h2 (by simp)
          · exact ⟨l, hmem, hm⟩

/-!  Shape invariant of the exported trie (claim C8): every node reachable
in a dictionary-built TrieNode has exactly 27 child slots, slots 0-25 hold
letter children whose letter is index + A, and slot 26 is occupied exactly
at word boundaries - it is the sentinel the multi-word searches test when
they decide to close the current word and restart from the root (their
word-break branch fires at child index len(children)-1 = 26). -/

/-- Shape check of an exported trie node down to a given depth: 27 child
slots, slot 26 occupied iff the boundary flag is set, slot i < 26 holding a
child whose letter is the character A + i, slot 26 holding the anonymous
sentinel, recursively. -/
def good27To : Nat → TrieNode → Bool
  | 0, _ => true
  | d + 1, t =>
      (t.children.length == 27) &&
      ((t.children.getD 26 none).isSome == t.atWordBoundary) &&
      ((List.range 27).all (fun i =>
        match t.children.getD i none with
        | none => true
        | some c =>
            (c.letter == (if i = 26 then [] else [Char.ofNat (i + ASCII_A)])) &&
            good27To d c))

/-- Shape invariant at every depth. -/
def Good27 (t : TrieNode) : Prop := ∀ d, good27To d t = true

theorem good27To_succ (d : Nat) (l b v) (cs : List (Option TrieNode)) :
    good27To (d + 1) (.mk l b v cs) =
      ((cs.length == 27) &&
        ((cs.getD 26 none).isSome == b) &&
        ((List.range 27).all (fun i =>
          match cs.getD i none with
          | none => true
          | some c =>
              (c.letter == (if i = 26 then [] else [Char.ofNat (i + ASCII_A)])) &&
              good27To d c))) := rfl

theorem good27To_succ_iff {d : Nat} {l b v} {cs : List (Option TrieNode)} :
    good27To (d + 1) (.mk l b v cs) = true ↔
      (cs.length = 27 ∧ (cs.getD 26 none).isSome = b ∧
        ∀ i, i < 27 → ∀ c, cs.getD i none = some c →
          (c.letter = (if i = 26 then [] else [Char.ofNat (i + ASCII_A)]) ∧
            good27To d c = true)) := by
  rw [good27To_succ]
  rw [Bool.and_eq_true, Bool.and_eq_true, beq_iff_eq, beq_iff_eq, List.all_eq_true]
  constructor
  · rintro ⟨⟨h1, h2⟩, h3⟩
    refine ⟨h1, h2, fun i hi c hc => ?_⟩
    have := h3 i (List.mem_range.mpr hi)
    rw [hc] at this
    rw [Bool.and_eq_true, beq_iff_eq] at this
    exact this
  · rintro ⟨h1, h2, h3⟩
    refine ⟨⟨h1, h2⟩, fun i hi => ?_⟩
    cases hc : cs.getD i none with
    | none => rfl
    | some c =>
      rw [Bool.and_eq_true, beq_iff_eq]
      exact h3 i (List.mem_range.mp hi) c hc

theorem good27_new (l : List Char) : Good27 (newTrieWithLetter27 l) := by
  intro d
  cases d with
  | zero => rfl
  | succ d =>
    rw [newTrieWithLetter27]
    refine good27To_succ_iff.mpr ⟨by simp, by simp, ?_⟩
    intro i hi c hc
    rw [List.getD_eq_getElem?_getD, List.getElem?_replicate] at hc
    by_cases h27 : i < 27
    · rw [if_pos h27] at hc
      simp at hc
    · rw [if_neg h27] at hc
      simp at hc

theorem insertWord_letter (t : TrieNode) (w : List Char) :
    (insertWord t w).letter = t.letter := by
  cases t with
  | mk l b v cs => cases w <;> rfl

theorem getD_set_self {cs : List (Option TrieNode)} {i : Nat} {x : Option TrieNode}
    (h : i < cs.length) : (cs.set i x).getD i none = x := by
  rw [List.getD_eq_getElem?_getD, List.getElem?_set_self]
  · simp
  · exact h

theorem getD_set_other {cs : List (Option TrieNode)} {i j : Nat} {x : Option TrieNode}
    (h : i ≠ j) : (cs.set i x).getD j none = cs.getD j none := by
  rw [List.getD_eq_getElem?_getD, List.getD_eq_getElem?_getD, List.getElem?_set_ne h]

theorem char_ofNat_byteIndex {c : Char} (h : 65 ≤ c.toNat ∧ c.toNat ≤ 90) :
    Char.ofNat (byteIndex c + ASCII_A) = c := by
  have : byteIndex c = c.toNat - 65 := by
    simp [byteIndex, ASCII_A]
    omega
  rw [this]
  have : c.toNat - 65 + ASCII_A = c.toNat := by
    rw [ASCII_A]
    omega
  rw [this, Char.ofNat_toNat]

/-- Insertion of an all-uppercase word preserves the shape invariant. -/
theorem insertWord_good {w : List Char} :
    ∀ {t : TrieNode}, Good27 t → safeString w = true → Good27 (insertWord t w) := by
  induction w with
  | nil =>
    intro t hg _
    cases t with
    | mk l b v cs =>
      intro d
      cases d with
      | zero => rfl
      | succ d =>
        obtain ⟨h1, h2, h3⟩ := good27To_succ_iff.mp (hg (d + 1))
        rw [insertWord]
        refine good27To_succ_iff.mpr ⟨by simp [h1], ?_, ?_⟩
        · rw [getD_set_self (by omega)]
          rfl
        · intro i hi c hc
          by_cases h26 : i = 26
          · subst h26
            rw [getD_set_self (by omega)] at hc
            injection hc with hc
            subst hc
            exact ⟨by simp [newTrieWithLetter27], good27_new [] d⟩
          · rw [getD_set_other (fun hEq => h26 hEq.symm)] at hc
            exact h3 i hi c hc
  | cons ch rest ih =>
    intro t hg hs
    cases t with
    | mk l b v cs =>
      have hch : 65 ≤ ch.toNat ∧ ch.toNat ≤ 90 := by
        simp [safeString] at hs
        exact hs.1
      have hrest : safeString rest = true := by
        simp [safeString] at hs ⊢
        exact hs.2
      have hidx26 : byteIndex ch < 26 := byteIndex_lt_26 hch
      have hchildGood : Good27 ((cs.getD (byteIndex ch) none).getD (newTrieWithLetter27 [ch])) := by
        cases hget : cs.getD (byteIndex ch) none with
        | none => simpa [hget] using good27_new [ch]
        | some c0 =>
          simp only [hget, Option.getD]
          intro d
          exact ((good27To_succ_iff.mp (hg (d + 1))).2.2 (byteIndex ch) (by omega) c0 hget).2
      have hchildLetter :
          ((cs.getD (byteIndex ch) none).getD (newTrieWithLetter27 [ch])).letter = [ch] := by
        cases hget : cs.getD (byteIndex ch) none with
        | none => simp [hget, newTrieWithLetter27]
        | some c0 =>
          simp only [hget, Option.getD]
          have := ((good27To_succ_iff.mp (hg 1)).2.2 (byteIndex ch) (by omega) c0 hget).1
          rw [if_neg (by omega : ¬ byteIndex ch = 26)] at this
          rw [this, char_ofNat_byteIndex hch]
      intro d
      cases d with
      | zero => rfl
      | succ d =>
        obtain ⟨h1, h2, h3⟩ := good27To_succ_iff.mp (hg (d + 1))
        rw [insertWord]
        refine good27To_succ_iff.mpr ⟨by simp [h1], ?_, ?_⟩
        · rw [getD_set_other (by omega : byteIndex ch ≠ 26)]
          exact h2
        · intro i hi c hc
          by_cases hsame : i = byteIndex ch
          · subst hsame
            rw [getD_set_self (by omega)] at hc
            injection hc with hc
            subst hc
            constructor
            · rw [if_neg (by omega : ¬ byteIndex ch = 26)]
              rw [insertWord_letter, hchildLetter, char_ofNat_byteIndex hch]
            · exact ih hchildGood hrest (d)
          · rw [getD_set_other (fun hEq => hsame hEq.symm)] at hc
            exact h3 i hi c hc

/-- Dictionary construction preserves the shape invariant from the root. -/
theorem buildTrie27_good (ws : List (List Char)) : Good27 (buildTrie27 ws) := by
  rw [buildTrie27]
  have : ∀ (t : TrieNode), Good27 t → Good27 (ws.foldl addValueForString27 t) := by
    induction ws with
    | nil => intro t hg; exact hg
    | cons w ws ih =>
      intro t hg
      rw [List.foldl_cons]
      apply ih
      rw [addValueForString27]
      by_cases hv : validWord w = true
      · rw [if_pos hv]
        exact insertWord_good hg (validWord_safe hv)
      · rw [if_neg hv]
        exact hg
  exact this newTrie27 (good27_new [])

/-- Claim C8 (spec-modelled: the exported TrieNode definition is absent from
src/, so its 27-slot shape is the spec's account, verified against the
insertion model and the searches that consume it): every node of a
dictionary-built trie has exactly 27 child slots, slots 0-25 hold the letter
children (index = letter - A) and slot 26 is occupied exactly at word
boundaries; the index the multi-word searches treat as the word-break slot,
len(children) - 1, is exactly 26 on every such node. -/
theorem trie27_child_slots :
    (∀ (ws : List (List Char)) (d : Nat), good27To d (buildTrie27 ws) = true)
    ∧ (∀ (t : TrieNode) (d : Nat), good27To (d + 1) t = true →
        t.children.length - 1 = 26) := by
  constructor
  · intro ws d
    exact buildTrie27_good ws d
  · intro t d h
    cases t with
    | mk l b v cs =>
      have := (good27To_succ_iff.mp h).1
      simp [this]

/-- Witness for claim C8: the shape invariant evaluated on the dictionary
{AB} to depth 3, and its word-break index. -/
theorem trie27_child_slots_witness :
    good27To 3 (buildTrie27 [['A', 'B']]) = true ∧
    (buildTrie27 [['A', 'B']]).children.length - 1 = 26 :=
  ⟨trie27_child_slots.1 [['A', 'B']] 3,
   trie27_child_slots.2 (buildTrie27 [['A', 'B']]) 2
     (trie27_child_slots.1 [['A', 'B']] 3)⟩

/-!  Hill-climbing, from PerformHillclimbSolve in src/unnamed/part_004
(hillclimb.go).  The solver only ever compares candidate fitnesses, so a
candidate is represented by its fitness in an arbitrary linear order
(instantiable at Int; float64 comparison is abstracted by the order).  The
loop state carries currentCandidate, bestOfGeneration, the stale counter
fitnessGenerations and currentGeneration; the bounded archive (the
candidates slice) never feeds back into any of these, so it is not part of
the state.  The random draws of one iteration are the fitnesses of the
localLookaround mutated candidates plus the fitness of the fresh random key
used only if a regeneration triggers. -/

/-- Loop state of PerformHillclimbSolve. -/
structure HillclimbState (α : Type) : Type where
  currentCandidate : α
  bestOfGeneration : α
  fitnessGenerations : Nat
  currentGeneration : Nat
deriving DecidableEq

/-- One iteration of the for-loop of PerformHillclimbSolve: promote the
current candidate to best-of-generation when strictly fitter (resetting the
stale counter, otherwise incrementing it); when the stale counter passes
regenAfter, reseed both candidates from a fresh random key and advance the
generation (the returned flag is true); otherwise perform the local
lookaround, keeping the best of the mutated batch against the current
candidate. -/
def hillclimbIterate {α : Type} [LinearOrder α] (regenAfter : Nat)
    (st : HillclimbState α) (lookaroundFitness : List α) (reseedFitness : α) :
    HillclimbState α × Bool :=
  let bestStale :=
    if st.bestOfGeneration < st.currentCandidate then (st.currentCandidate, 0)
    else (st.bestOfGeneration, st.fitnessGenerations + 1)
  if regenAfter < bestStale.2 then
    (⟨reseedFitness, reseedFitness, 0, st.currentGeneration + 1⟩, true)
  else
    let newCurrent := lookaroundFitness.foldl
      (fun best check => if best < check then check else best) st.currentCandidate
    (⟨newCurrent, bestStale.1, bestStale.2, st.currentGeneration⟩, false)

/-- Successive loop iterations threaded over a list of random draws; each
element of the result is the state after an iteration together with its
regeneration flag. -/
def hillclimbRun {α : Type} [LinearOrder α] (regenAfter : Nat) :
    HillclimbState α → List (List α × α) → List (HillclimbState α × Bool)
  | _, [] => []
  | st, draw :: draws =>
      let step := hillclimbIterate regenAfter st draw.1 draw.2
      step :: hillclimbRun regenAfter step.1 draws

theorem hillclimbIterate_best_le {α : Type} [LinearOrder α] {regenAfter : Nat}
    {st st2 : HillclimbState α} {look : List α} {reseed : α}
    (h : hillclimbIterate regenAfter st look reseed = (st2, false)) :
    st.bestOfGeneration ≤ st2.bestOfGeneration := by
  rw [hillclimbIterate] at h
  by_cases hlt : st.bestOfGeneration < st.currentCandidate
  · rw [if_pos hlt] at h
    by_cases hregen : regenAfter < (st.currentCandidate, 0).2
    · rw [if_pos hregen] at h
      exact absurd (congrArg Prod.snd h) (by simp)
    · rw [if_neg hregen] at h
      have := congrArg Prod.fst h
      simp at this
      rw [← this]
      exact le_of_lt hlt
  · rw [if_neg hlt] at h
    by_cases hregen : regenAfter < (st.bestOfGeneration, st.fitnessGenerations + 1).2
    · rw [if_pos hregen] at h
      exact absurd (congrArg Prod.snd h) (by simp)
    · rw [if_neg hregen] at h
      have := congrArg Prod.fst h
      simp at this
      rw [← this]

/-- Claim C9: within one unbroken trajectory - a run of iterations none of
which triggers the stale-counter regeneration - the fitness of
bestOfGeneration is non-decreasing across successive iterations of
PerformHillclimbSolve's loop, for every starting state, parameter setting
and sequence of random draws. -/
theorem hillclimb_best_monotone {α : Type} [LinearOrder α] (regenAfter : Nat)
    (st : HillclimbState α) (draws : List (List α × α))
    (hnoregen : ∀ p ∈ hillclimbRun regenAfter st draws, p.2 = false) :
    List.Chain' (fun p q => p.1.bestOfGeneration ≤ q.1.bestOfGeneration)
      ((st, false) :: hillclimbRun regenAfter st draws) := by
  induction draws generalizing st with
  | nil => simp [hillclimbRun]
  | cons draw draws ih =>
    rcases hpair : hillclimbIterate regenAfter st draw.1 draw.2 with ⟨st2, flag⟩
    have hmem1 : (st2, flag) ∈ hillclimbRun regenAfter st (draw :: draws) := by
      rw [hillclimbRun, hpair]
      exact List.mem_cons_self _ _
    have hflag : flag = false := hnoregen _ hmem1
    subst hflag
    have hrest : ∀ p ∈ hillclimbRun regenAfter st2 draws, p.2 = false := by
      intro p hp
      apply hnoregen
      rw [hillclimbRun, hpair]
      exact List.mem_cons_of_mem _ hp
    rw [hillclimbRun, hpair]
    rw [List.chain'_cons]
    exact ⟨hillclimbIterate_best_le hpair, ih st2 hrest⟩

/-- Witness for claim C9: a concrete three-iteration Int-fitness run with no
regeneration; best-of-generation is non-decreasing along it. -/
theorem hillclimb_best_monotone_witness :
    List.Chain'
      (fun p q => p.1.bestOfGeneration ≤ q.1.bestOfGeneration)
      (((⟨0, 0, 1, 1⟩ : HillclimbState Int), false) ::
        hillclimbRun 5 (⟨0, 0, 1, 1⟩ : HillclimbState Int)
          [([3], 0), ([2], 0), ([7], 0)]) :=
  hillclimb_best_monotone 5 (⟨0, 0, 1, 1⟩ : HillclimbState Int)
    [([3], 0), ([2], 0), ([7], 0)] (by decide)

end PuzzleHelper
